import Mathlib

/-!
# Verification of the chunked scoring orchestrator (`Scoring/pipeline.py`)

Shallow embedding of the `Pipeline` class from `src/Scoring/pipeline.py`.
Python dictionaries (`score_weights`, score vectors, `cumulative_scores`,
`FEEDBACK_MESSAGES`) are embedded as ordered association lists
`List (String × _)`, matching the insertion-ordered `dict` of Python; a
well-formed dictionary has no duplicate keys, which appears as a `Nodup`
hypothesis where a proof needs it.  Score values are embedded as exact
rationals `ℚ`.  External collaborators (`KaraokeData`, `AudioPreprocessor`,
`AudioScorer`, `TranscriptionService`) are opaque: their composite effect on
a chunk is a parameter of the orchestrator model.
-/

/-- Embedding of a Python `dict` read `d.get(key)` / `d[key]` lookup on an
insertion-ordered association list: the first entry with the key wins
(a well-formed dict has at most one). -/
def dictGet {α : Type} : List (String × α) → String → Option α
  | [], _ => none
  | (k, v) :: rest, key => if key = k then some v else dictGet rest key

/-- The key list of an embedded dictionary (Python `dict` keys, in order). -/
def dictKeys {α : Type} (d : List (String × α)) : List String :=
  d.map Prod.fst

/-- Embedding of `Pipeline._calculate_weighted_score` (pipeline.py lines
135-148):
fold over the score dictionary, look each score name up in
`self.score_weights` with `.get`, skip the entry when no weight is
configured (`weight is None: continue`), otherwise add
`score_value * weight` to the accumulator started at `0.0`. -/
def calculateWeightedScore (weights scores : List (String × ℚ)) : ℚ :=
  scores.foldl
    (fun acc p =>
      match dictGet weights p.1 with
      | none => acc
      | some w => acc + p.2 * w)
    0

/-- The contribution of one score entry to the composite score: its value
times its configured weight, and `0` when no weight is configured. -/
def weightTerm (weights : List (String × ℚ)) (p : String × ℚ) : ℚ :=
  match dictGet weights p.1 with
  | none => 0
  | some w => p.2 * w

/-- One entry of `config.FEEDBACK_MESSAGES`: the "high" and "low" feedback
strings configured for one score name. -/
structure FeedbackMessages where
  high : String
  low : String
deriving DecidableEq

/-- Embedding of `Pipeline._generate_feedback` (pipeline.py lines 156-162):
walk the
feedback catalog in its configured order; at the first score name that is
present in the given score dictionary, classify the value as "high" when
`score_value >= 0.8` and "low" otherwise and return that catalog string
immediately.  Falling off the end of the loop is the implicit Python
`return None`, embedded as `none`. -/
def generateFeedback (catalog : List (String × FeedbackMessages))
    (scores : List (String × ℚ)) : Option String :=
  match catalog with
  | [] => none
  | (name, msgs) :: rest =>
    match dictGet scores name with
    | some v => some (if 0.8 ≤ v then msgs.high else msgs.low)
    | none => generateFeedback rest scores

/-- One audio sample of a floating-point numpy array: either a finite value
(embedded exactly as a rational) or one of the non-finite IEEE values
NaN, +Inf, -Inf. -/
inductive Sample where
  | finite (val : ℚ)
  | nan
  | posinf
  | neginf
deriving DecidableEq

/-- Embedding of `np.isfinite` on one sample. -/
def Sample.isfinite : Sample → Bool
  | .finite _ => true
  | _ => false

/-- The largest finite IEEE-754 float64 value, `(2 - 2^-52) * 2^1023`,
written as an exact rational. -/
def float64Max : ℚ := (2 ^ 53 - 1) * 2 ^ 971

/-- Embedding of `np.nan_to_num` with its default arguments on one sample:
NaN becomes
`0.0`, +Inf becomes the largest finite value of the dtype and -Inf the most
negative finite value (shown here for float64, the default numpy float dtype;
for float32 the magnitude differs but is likewise nonzero).  Finite values
pass through unchanged. -/
def nanToNum : Sample → Sample
  | .finite q => .finite q
  | .nan => .finite 0
  | .posinf => .finite float64Max
  | .neginf => .finite (-float64Max)

/-- pipeline.py lines 90-92: when any sample of the chunk is non-finite
(`not np.all(np.isfinite(audio_chunk))`), log and replace the chunk with
`np.nan_to_num(audio_chunk)`; otherwise the chunk is left untouched.
Processing continues either way. -/
def sanitizeChunk (chunk : List Sample) : List Sample :=
  if chunk.all Sample.isfinite then chunk else chunk.map nanToNum

/-- Modelled from the spec wording for comparison (C4): "replace non-finite
values with zero in place".  This is what the claim asserts the sanitizer
does; it is compared against `sanitizeChunk`, the embedding of the code. -/
def sanitizeSpecZero (chunk : List Sample) : List Sample :=
  chunk.map (fun x => if x.isfinite then x else Sample.finite 0)

/-- A per-chunk audio input as `process_and_score` receives it: either a raw
byte buffer (`raw` carries the int16 values that `np.frombuffer(bytes,
dtype=np.int16)` decodes from it) or an already-constructed numpy float
array (`ndarr`). -/
inductive AudioBuffer where
  | raw (pcm : List ℤ)
  | ndarr (samples : List Sample)
deriving DecidableEq

/-- Embedding of `np.max(np.abs(a))` over an integer array (the empty-array
case, where
numpy would raise, is given the neutral value 0; no claim depends on it). -/
def npMaxAbs (a : List ℤ) : ℤ :=
  a.foldl (fun m x => max m |x|) 0

/-- Embedding of `Pipeline._convert_to_numpy_array` (pipeline.py lines
62-75):
`np.frombuffer(audio_chunk, dtype=np.int16)` followed, when `to_float`,
by a cast to float and division by `np.iinfo(np.int16).max = 32767`
whenever the maximal absolute value exceeds 1.  On a `raw` buffer
`frombuffer` decodes the int16 samples; on an already-float `ndarr` buffer
`frombuffer` reinterprets the underlying bytes of the array as int16 words —
that memory reinterpretation is the parameter `reinterp`, so every theorem
about this function holds for whatever the platform layout produces. -/
def convertToNumpyArray (reinterp : List Sample → List ℤ)
    (buf : AudioBuffer) (toFloat : Bool) : List Sample :=
  let a : List ℤ :=
    match buf with
    | .raw pcm => pcm
    | .ndarr xs => reinterp xs
  if toFloat then
    if 1 < npMaxAbs a then
      a.map (fun (x : ℤ) => Sample.finite ((x : ℚ) / 32767))
    else a.map (fun (x : ℤ) => Sample.finite ((x : ℚ)))
  else a.map (fun (x : ℤ) => Sample.finite ((x : ℚ)))

/-- pipeline.py lines 86-87: the incoming chunk is converted only when it is
not already a numpy array (`if not isinstance(audio_chunk, np.ndarray)`);
an array input passes through unchanged. -/
def normalizeChunkInput (reinterp : List Sample → List ℤ)
    (buf : AudioBuffer) : List Sample :=
  match buf with
  | .ndarr xs => xs
  | .raw _ => convertToNumpyArray reinterp buf true

/-- pipeline.py lines 100-101: both reference buffers returned by
`get_next_segment` are passed through `_convert_to_numpy_array(_, True)`
unconditionally — there is no `isinstance` guard on this path. -/
def normalizeReference (reinterp : List Sample → List ℤ)
    (buf : AudioBuffer) : List Sample :=
  convertToNumpyArray reinterp buf true

/-- The mutable session state of a `Pipeline` object: `cumulative_scores`
and `chunk_count` (set by `_reset_scores`, pipeline.py lines 44-53) and the
one-time-alignment flag `self.initialized` (line 36), here named
`alignDone`. -/
structure PipelineState where
  cumulativeScores : List (String × ℚ)
  chunkCount : ℕ
  alignDone : Bool
deriving DecidableEq

/-- Embedding of `Pipeline._reset_scores` (pipeline.py lines 44-53): the
fixed
five-key cumulative-score dictionary, all sums zero. -/
def resetScores : List (String × ℚ) :=
  [("linguistic_accuracy_score", 0),
   ("linguistic_similarity_score", 0),
   ("amplitude_score", 0),
   ("pitch_score", 0),
   ("rhythm_score", 0)]

/-- The state right after `Pipeline.__init__` (pipeline.py lines 34-36):
`_reset_scores()` and `self.initialized = False`. -/
def initialState : PipelineState :=
  { cumulativeScores := resetScores, chunkCount := 0, alignDone := false }

/-- Writing one key of an embedded dictionary (every entry carrying the key
is overwritten; a well-formed dict has exactly one). -/
def dictSet {α : Type} (d : List (String × α)) (key : String) (v : α) :
    List (String × α) :=
  d.map (fun p => if p.1 = key then (key, v) else p)

/-- Embedding of the Python dict update `d[key] += v`: read `d[key]` — a
`KeyError`, embedded as
`none`, when the key is absent — then write back the sum.  A dict subscript
never inserts a new key on the read side. -/
def dictIncr (d : List (String × ℚ)) (key : String) (v : ℚ) :
    Option (List (String × ℚ)) :=
  match dictGet d key with
  | none => none
  | some old => some (dictSet d key (old + v))

/-- The accumulation loop of `process_and_score` (pipeline.py lines
113-114): `for score_name, score_value in scores.items():
self.cumulative_scores[score_name] += score_value`.  A `KeyError` aborts
the loop; the `error` value carries the dictionary as already partially
updated by the earlier iterations, matching the in-place Python mutation. -/
def accumulateScores : List (String × ℚ) → List (String × ℚ) →
    Except (List (String × ℚ)) (List (String × ℚ))
  | d, [] => Except.ok d
  | d, (k, v) :: rest =>
    match dictIncr d k v with
    | none => Except.error d
    | some d2 => accumulateScores d2 rest

/-- The observable outcome of one `process_and_score` call:
whether `karaoke_data.align_audio` was invoked during the call, the
returned triple `(score, average_score, feedback)` — `none` when the call
raised `KeyError` in the accumulation loop — and the object state after
the call (mutations before the raise persist). -/
structure ProcessResult where
  alignInvoked : Bool
  output : Option (ℚ × ℚ × Option String)
  state : PipelineState
deriving DecidableEq

/-- Embedding of `Pipeline.process_and_score` (pipeline.py lines 77-119).
In source
order: the one-time alignment (lines 82-84, `align_audio` invoked iff
`self.initialized` is still false, then the flag is set), chunk conversion
(86-87), sanitization (89-92), then segment fetch, reference conversion,
preprocessing and scoring (96-107).  The external collaborators
(`KaraokeData.get_next_segment`, `AudioPreprocessor.preprocess_audio`,
`AudioScorer.process_audio_chunk`) are opaque; their composite effect — the
score dictionary produced for this chunk — is the parameter `scoresOf`
applied to the normalized, sanitized chunk.  Then the weighted score (109),
feedback (110), accumulation (113-114), counter increment (115) and running
average (117). -/
def processAndScore (weights : List (String × ℚ))
    (catalog : List (String × FeedbackMessages))
    (reinterp : List Sample → List ℤ)
    (scoresOf : List Sample → List (String × ℚ))
    (chunk : AudioBuffer) (s : PipelineState) : ProcessResult :=
  let alignInvoked := !s.alignDone
  let s1 : PipelineState := { s with alignDone := true }
  let arr := sanitizeChunk (normalizeChunkInput reinterp chunk)
  let scores := scoresOf arr
  let score := calculateWeightedScore weights scores
  let feedback := generateFeedback catalog scores
  match accumulateScores s1.cumulativeScores scores with
  | Except.error d =>
    { alignInvoked := alignInvoked, output := none,
      state := { s1 with cumulativeScores := d } }
  | Except.ok d =>
    let s2 : PipelineState :=
      { cumulativeScores := d, chunkCount := s1.chunkCount + 1,
        alignDone := true }
    let avg := calculateWeightedScore weights s2.cumulativeScores /
      (s2.chunkCount : ℚ)
    { alignInvoked := alignInvoked, output := some (score, avg, feedback),
      state := s2 }

/-- A sequence of `process_and_score` calls on one `Pipeline` object: each
call is given its chunk and the (opaque) scoring outcome for that call, and
the object state threads from call to call — also through calls that raise,
since the Python object survives an exception. -/
def runSession (weights : List (String × ℚ))
    (catalog : List (String × FeedbackMessages))
    (reinterp : List Sample → List ℤ) :
    List (AudioBuffer × (List Sample → List (String × ℚ))) →
    PipelineState → List ProcessResult
  | [], _ => []
  | (chunk, scoresOf) :: rest, s =>
    let r := processAndScore weights catalog reinterp scoresOf chunk s
    r :: runSession weights catalog reinterp rest r.state

/-- Embedding of `Pipeline.final_score` (pipeline.py lines 121-124): the
weighted score
of the cumulative sums divided by `chunk_count`, plus feedback generated
from the cumulative sums.  Python raises `ZeroDivisionError` when
`chunk_count` is zero, embedded as `Except.error`. -/
def finalScore (weights : List (String × ℚ))
    (catalog : List (String × FeedbackMessages)) (s : PipelineState) :
    Except String (ℚ × Option String) :=
  if s.chunkCount = 0 then Except.error "ZeroDivisionError"
  else Except.ok
    (calculateWeightedScore weights s.cumulativeScores / (s.chunkCount : ℚ),
     generateFeedback catalog s.cumulativeScores)

/-- Embedding of `Pipeline.get_average_scores` (pipeline.py lines 150-154):
per-name
average `score_value / self.chunk_count` over the cumulative dictionary,
no weights involved.  The division sits inside the comprehension, so
Python raises `ZeroDivisionError` exactly when `chunk_count` is zero and
the dictionary has at least one entry (it always has five). -/
def getAverageScores (s : PipelineState) :
    Except String (List (String × ℚ)) :=
  if s.chunkCount = 0 ∧ s.cumulativeScores ≠ [] then
    Except.error "ZeroDivisionError"
  else Except.ok
    (s.cumulativeScores.map (fun p => (p.1, p.2 / (s.chunkCount : ℚ))))

/-- The `final_score` method as a call on the object: the method body
(pipeline.py
lines 121-124) contains no field assignment, so the state after the call
is the state before it. -/
def finalScoreCall (weights : List (String × ℚ))
    (catalog : List (String × FeedbackMessages)) (s : PipelineState) :
    Except String (ℚ × Option String) × PipelineState :=
  (finalScore weights catalog s, s)

/-- The `get_average_scores` method as a call on the object: the method body
(pipeline.py lines 150-154) contains no field assignment, so the state
after the call is the state before it. -/
def getAverageScoresCall (s : PipelineState) :
    Except String (List (String × ℚ)) × PipelineState :=
  (getAverageScores s, s)

/-- Dictionary lookup with default `0`, the value a score name contributes
to a cumulative sum (`0` when the name is absent from the score vector). -/
def dictGetD (d : List (String × ℚ)) (key : String) : ℚ :=
  (dictGet d key).getD 0

/-- The cumulative-score dictionary after `n` chunks that each produced the
same score vector `S`: every one of the five fixed keys holds `n` times its
value in `S` (names absent from `S` stay at zero). -/
def scaledCumulative (n : ℕ) (S : List (String × ℚ)) : List (String × ℚ) :=
  resetScores.map (fun p => (p.1, (n : ℚ) * dictGetD S p.1))

theorem calculateWeightedScore_foldl_eq (weights scores : List (String × ℚ))
    (acc : ℚ) :
    scores.foldl
      (fun acc p =>
        match dictGet weights p.1 with
        | none => acc
        | some w => acc + p.2 * w)
      acc = acc + (scores.map (weightTerm weights)).sum := by
  induction scores generalizing acc with
  | nil => simp
  | cons p rest ih =>
    simp only [List.foldl_cons, List.map_cons, List.sum_cons, weightTerm]
    cases h : dictGet weights p.1 with
    | none => rw [ih]; ring
    | some w => rw [ih]; ring

theorem calculateWeightedScore_eq_sum (weights scores : List (String × ℚ)) :
    calculateWeightedScore weights scores
      = (scores.map (weightTerm weights)).sum := by
  have h := calculateWeightedScore_foldl_eq weights scores 0
  simpa [calculateWeightedScore] using h

/-- C1: the composite score equals the sum over score names present in the
ScoreVector of score_value times the weight looked up in ScoreWeights,
where score names absent from ScoreWeights contribute nothing; in
particular the ScoreVector {"a": 1.0, "b": 1.0} with weights {"a": 0.5}
yields composite 0.5 regardless of the value under b. -/
theorem weighted_score_spec_C1 :
    (∀ weights scores : List (String × ℚ),
        calculateWeightedScore weights scores
          = (scores.map (weightTerm weights)).sum)
    ∧ (∀ b : ℚ,
        calculateWeightedScore [("a", 0.5)] [("a", 1), ("b", b)] = 0.5) := by
  refine ⟨calculateWeightedScore_eq_sum, ?_⟩
  intro b
  simp [calculateWeightedScore, dictGet]

theorem dictGet_eq_none_iff {α : Type} (d : List (String × α)) (key : String) :
    dictGet d key = none ↔ key ∉ dictKeys d := by
  induction d with
  | nil => simp [dictGet, dictKeys]
  | cons p rest ih =>
    obtain ⟨k, v⟩ := p
    by_cases h : key = k
    · subst h
      simp [dictGet, dictKeys]
    · simp [dictGet, dictKeys, h, ih]

theorem dictGet_isSome_of_mem {α : Type} (d : List (String × α)) (key : String)
    (h : key ∈ dictKeys d) : ∃ v, dictGet d key = some v := by
  cases hg : dictGet d key with
  | none => exact absurd h ((dictGet_eq_none_iff d key).mp hg)
  | some v => exact ⟨v, rfl⟩

theorem mem_dictKeys_of_dictGet {α : Type} (d : List (String × α)) (key : String)
    (v : α) (h : dictGet d key = some v) : key ∈ dictKeys d := by
  by_contra hk
  rw [(dictGet_eq_none_iff d key).mpr hk] at h
  exact Option.noConfusion h

theorem dictGet_of_mem_nodup {α : Type} (d : List (String × α))
    (hd : (dictKeys d).Nodup) (p : String × α) (hp : p ∈ d) :
    dictGet d p.1 = some p.2 := by
  induction d with
  | nil => exact absurd hp (List.not_mem_nil p)
  | cons q rest ih =>
    obtain ⟨k, v⟩ := q
    simp only [dictKeys, List.map_cons, List.nodup_cons] at hd
    rcases List.mem_cons.mp hp with h | h
    · subst h
      simp [dictGet]
    · have hne : p.1 ≠ k := by
        intro he
        exact hd.1 (he ▸ List.mem_map_of_mem Prod.fst h)
      simp only [dictGet, hne, if_false]
      exact ih hd.2 h

theorem dictKeys_dictSet {α : Type} (d : List (String × α)) (key : String)
    (v : α) : dictKeys (dictSet d key v) = dictKeys d := by
  simp only [dictKeys, dictSet, List.map_map]
  apply List.map_congr_left
  intro p _
  by_cases h : p.1 = key
  · simp [Function.comp, h]
  · simp [Function.comp, h]

theorem dictGet_map_value {α β : Type} (g : String → α → β)
    (d : List (String × α)) (key : String) :
    dictGet (d.map (fun p => (p.1, g p.1 p.2))) key
      = (dictGet d key).map (g key) := by
  induction d with
  | nil => rfl
  | cons p rest ih =>
    obtain ⟨k, v⟩ := p
    by_cases h : key = k
    · subst h
      simp [dictGet]
    · simp [dictGet, h, ih]

theorem dictGet_filter_ne (S : List (String × ℚ)) (k key : String)
    (h : key ≠ k) :
    dictGet (S.filter (fun q => q.1 ≠ k)) key = dictGet S key := by
  induction S with
  | nil => rfl
  | cons q rest ih =>
    obtain ⟨qk, qv⟩ := q
    simp only [ne_eq, decide_not] at ih ⊢
    by_cases hq : qk = k
    · subst hq
      have hne : key ≠ qk := h
      simp [List.filter, dictGet, hne, ih]
    · by_cases hk : key = qk
      · subst hk
        simp [List.filter, dictGet, hq]
      · simp [List.filter, dictGet, hq, hk, ih]

theorem accumulateScores_keys (S : List (String × ℚ)) :
    ∀ d : List (String × ℚ),
      match accumulateScores d S with
      | Except.ok d2 => dictKeys d2 = dictKeys d
      | Except.error d2 => dictKeys d2 = dictKeys d := by
  induction S with
  | nil => intro d; simp [accumulateScores]
  | cons p rest ih =>
    intro d
    obtain ⟨k, v⟩ := p
    simp only [accumulateScores]
    cases hi : dictIncr d k v with
    | none => simp
    | some d1 =>
      have hkeys : dictKeys d1 = dictKeys d := by
        unfold dictIncr at hi
        cases hg : dictGet d k with
        | none => rw [hg] at hi; exact Option.noConfusion hi
        | some old =>
          rw [hg] at hi
          have : dictSet d k (old + v) = d1 := Option.some.inj hi
          rw [← this, dictKeys_dictSet]
      have := ih d1
      dsimp only
      cases hacc : accumulateScores d1 rest with
      | ok d2 => rw [hacc] at this; simpa [hkeys] using this
      | error d2 => rw [hacc] at this; simpa [hkeys] using this

theorem accumulateScores_ok (S : List (String × ℚ)) :
    ∀ d : List (String × ℚ), (dictKeys d).Nodup → (dictKeys S).Nodup →
      (∀ k ∈ dictKeys S, k ∈ dictKeys d) →
      accumulateScores d S
        = Except.ok (d.map (fun p => (p.1, p.2 + dictGetD S p.1))) := by
  induction S with
  | nil =>
    intro d _ _ _
    simp only [accumulateScores, dictGetD, dictGet, Option.getD_none, add_zero]
    rw [show (fun p : String × ℚ => (p.1, p.2)) = id by funext p; rfl,
      List.map_id]
  | cons p rest ih =>
    intro d hd hS hsub
    obtain ⟨k, v⟩ := p
    have hk : k ∈ dictKeys d := hsub k (by simp [dictKeys])
    obtain ⟨old, hold⟩ := dictGet_isSome_of_mem d k hk
    simp only [dictKeys, List.map_cons, List.nodup_cons] at hS
    have hknotin : k ∉ dictKeys rest := hS.1
    simp only [accumulateScores, dictIncr, hold]
    have hd1 : (dictKeys (dictSet d k (old + v))).Nodup := by
      rw [dictKeys_dictSet]; exact hd
    have hsub1 : ∀ k2 ∈ dictKeys rest, k2 ∈ dictKeys (dictSet d k (old + v)) := by
      intro k2 hk2
      rw [dictKeys_dictSet]
      exact hsub k2 (by simp [dictKeys] at hk2 ⊢; exact Or.inr hk2)
    rw [ih (dictSet d k (old + v)) hd1 hS.2 hsub1]
    congr 1
    simp only [dictSet, List.map_map]
    apply List.map_congr_left
    intro q hq
    by_cases hqk : q.1 = k
    · have hq2 : dictGet d q.1 = some q.2 := dictGet_of_mem_nodup d hd q hq
      rw [hqk] at hq2
      rw [hold] at hq2
      have hold2 : q.2 = old := (Option.some.inj hq2).symm
      have hrest : dictGet rest k = none := (dictGet_eq_none_iff rest k).mpr hknotin
      simp [Function.comp, hqk, dictGetD, dictGet, hrest, hold2]
    · simp [Function.comp, hqk, dictGetD, dictGet]

theorem accumulateScores_error_of_missing (S : List (String × ℚ)) :
    ∀ d : List (String × ℚ), ∀ name ∈ dictKeys S, name ∉ dictKeys d →
      ∃ d2, accumulateScores d S = Except.error d2 := by
  induction S with
  | nil =>
    intro d name hname _
    simp [dictKeys] at hname
  | cons p rest ih =>
    intro d name hname hmiss
    obtain ⟨k, v⟩ := p
    simp only [accumulateScores]
    cases hi : dictIncr d k v with
    | none => exact ⟨d, rfl⟩
    | some d1 =>
      unfold dictIncr at hi
      cases hg : dictGet d k with
      | none => rw [hg] at hi; exact Option.noConfusion hi
      | some old =>
        rw [hg] at hi
        have hd1 : d1 = dictSet d k (old + v) := (Option.some.inj hi).symm
        have hkd : k ∈ dictKeys d := mem_dictKeys_of_dictGet d k old hg
        have hne : name ≠ k := fun he => hmiss (he ▸ hkd)
        have hnrest : name ∈ dictKeys rest := by
          simp only [dictKeys, List.map_cons, List.mem_cons] at hname
          rcases hname with h | h
          · exact absurd h hne
          · exact h
        have hmiss1 : name ∉ dictKeys d1 := by
          rw [hd1, dictKeys_dictSet]; exact hmiss
        exact ih d1 name hnrest hmiss1

theorem sum_split_key (f : String → ℚ → ℚ) (hf : ∀ k, f k 0 = 0)
    (k : String) :
    ∀ S : List (String × ℚ), (dictKeys S).Nodup →
      (S.map (fun q => f q.1 q.2)).sum
        = f k (dictGetD S k)
          + ((S.filter (fun q => q.1 ≠ k)).map (fun q => f q.1 q.2)).sum := by
  intro S
  induction S with
  | nil => intro _; simp [dictGetD, dictGet, hf]
  | cons q rest ih =>
    intro hS
    obtain ⟨qk, qv⟩ := q
    simp only [dictKeys, List.map_cons, List.nodup_cons] at hS
    by_cases hqk : qk = k
    · subst hqk
      have hfilter : rest.filter (fun q : String × ℚ => q.1 ≠ qk) = rest := by
        apply List.filter_eq_self.mpr
        intro q hq
        have hne : q.1 ≠ qk := fun he =>
          hS.1 (he ▸ List.mem_map_of_mem Prod.fst hq)
        exact decide_eq_true hne
      rw [List.filter_cons, if_neg (by simp)]
      simp only [List.map_cons, List.sum_cons, hfilter]
      have hv : dictGetD ((qk, qv) :: rest) qk = qv := by
        simp [dictGetD, dictGet]
      rw [hv]
    · have hne : ¬ k = qk := fun he => hqk he.symm
      rw [List.filter_cons, if_pos (by simp [hqk])]
      simp only [List.map_cons, List.sum_cons, ih hS.2]
      have hd : dictGetD ((qk, qv) :: rest) k = dictGetD rest k := by
        simp [dictGetD, dictGet, hne]
      rw [hd]
      ring

theorem sum_over_keys (f : String → ℚ → ℚ) (hf : ∀ k, f k 0 = 0) :
    ∀ (d S : List (String × ℚ)), (dictKeys d).Nodup → (dictKeys S).Nodup →
      (∀ k ∈ dictKeys S, k ∈ dictKeys d) →
      (d.map (fun p => f p.1 (dictGetD S p.1))).sum
        = (S.map (fun q => f q.1 q.2)).sum := by
  intro d
  induction d with
  | nil =>
    intro S _ _ hsub
    have : S = [] := by
      cases S with
      | nil => rfl
      | cons q rest =>
        exact absurd (hsub q.1 (by simp [dictKeys])) (by simp [dictKeys])
    subst this
    simp
  | cons p d_rest ih =>
    intro S hd hS hsub
    obtain ⟨k, w⟩ := p
    simp only [dictKeys, List.map_cons, List.nodup_cons] at hd
    by_cases hk : k ∈ dictKeys S
    · have hsplit := sum_split_key f hf k S hS
      have hS' : (dictKeys (S.filter (fun q => q.1 ≠ k))).Nodup := by
        apply List.Nodup.sublist _ hS
        exact (List.filter_sublist S).map Prod.fst
      have hsub' : ∀ k2 ∈ dictKeys (S.filter (fun q => q.1 ≠ k)),
          k2 ∈ dictKeys d_rest := by
        intro k2 hk2
        simp only [dictKeys, List.mem_map] at hk2
        obtain ⟨q, hq, hq2⟩ := hk2
        rw [List.mem_filter] at hq
        have hqne : q.1 ≠ k := by
          have := hq.2
          simpa [decide_not] using this
        have : k2 ∈ dictKeys ((k, w) :: d_rest) :=
          hsub k2 (hq2 ▸ List.mem_map_of_mem Prod.fst hq.1)
        simp only [dictKeys, List.map_cons, List.mem_cons] at this
        rcases this with h | h
        · exact absurd (h ▸ hq2.symm ▸ rfl : q.1 = k) hqne
        · exact h
      have hmap : (d_rest.map (fun p => f p.1 (dictGetD S p.1)))
          = d_rest.map (fun p => f p.1 (dictGetD (S.filter (fun q => q.1 ≠ k)) p.1)) := by
        apply List.map_congr_left
        intro q hq
        have hqne : q.1 ≠ k := by
          intro he
          exact hd.1 (he ▸ List.mem_map_of_mem Prod.fst hq)
        have hfne := dictGet_filter_ne S k q.1 hqne
        simp only [ne_eq, decide_not] at hfne
        simp [dictGetD, hfne]
      simp only [List.map_cons, List.sum_cons, hmap,
        ih (S.filter (fun q => q.1 ≠ k)) hd.2 hS' hsub', hsplit]
    · have hzero : dictGetD S k = 0 := by
        rw [dictGetD, (dictGet_eq_none_iff S k).mpr hk]
        rfl
      have hsub' : ∀ k2 ∈ dictKeys S, k2 ∈ dictKeys d_rest := by
        intro k2 hk2
        have := hsub k2 hk2
        simp only [dictKeys, List.map_cons, List.mem_cons] at this
        rcases this with h | h
        · exact absurd (h ▸ hk2) hk
        · exact h
      simp only [List.map_cons, List.sum_cons, hzero, hf,
        ih S hd.2 hS hsub', zero_add]

theorem weightTerm_scale (weights : List (String × ℚ)) (k : String)
    (c x : ℚ) : weightTerm weights (k, c * x) = c * weightTerm weights (k, x) := by
  unfold weightTerm
  cases dictGet weights k with
  | none => simp
  | some w => simp; ring

theorem weightTerm_zero (weights : List (String × ℚ)) (k : String) :
    weightTerm weights (k, 0) = 0 := by
  unfold weightTerm
  cases dictGet weights k with
  | none => rfl
  | some w => simp

theorem weighted_scaled (weights S : List (String × ℚ))
    (hS : (dictKeys S).Nodup)
    (hsub : ∀ k ∈ dictKeys S, k ∈ dictKeys resetScores) (c : ℚ) :
    calculateWeightedScore weights
        (resetScores.map (fun p => (p.1, c * dictGetD S p.1)))
      = c * calculateWeightedScore weights S := by
  rw [calculateWeightedScore_eq_sum, calculateWeightedScore_eq_sum,
    List.map_map]
  have h1 : (weightTerm weights ∘ fun p : String × ℚ => (p.1, c * dictGetD S p.1))
      = fun p : String × ℚ => c * weightTerm weights (p.1, dictGetD S p.1) := by
    funext p
    exact weightTerm_scale weights p.1 c (dictGetD S p.1)
  rw [h1]
  have h2 : (resetScores.map
      (fun p : String × ℚ => c * weightTerm weights (p.1, dictGetD S p.1))).sum
      = c * (resetScores.map
        (fun p : String × ℚ => weightTerm weights (p.1, dictGetD S p.1))).sum := by
    rw [← List.sum_map_mul_left]
  rw [h2]
  have hnodup : (dictKeys resetScores).Nodup := by decide
  have h3 := sum_over_keys (fun k x => weightTerm weights (k, x))
    (fun k => weightTerm_zero weights k) resetScores S hnodup hS hsub
  have h4 : (S.map (fun q : String × ℚ => weightTerm weights (q.1, q.2)))
      = S.map (weightTerm weights) := by
    apply List.map_congr_left
    intro q _
    rfl
  rw [h3, h4]

theorem generateFeedback_first_match (scores : List (String × ℚ)) :
    ∀ (pre : List (String × FeedbackMessages)) (name : String)
      (msgs : FeedbackMessages) (post : List (String × FeedbackMessages)),
      (∀ q ∈ pre, dictGet scores q.1 = none) →
      ∀ v : ℚ, dictGet scores name = some v →
      generateFeedback (pre ++ (name, msgs) :: post) scores
        = some (if 0.8 ≤ v then msgs.high else msgs.low) := by
  intro pre
  induction pre with
  | nil =>
    intro name msgs post _ v hv
    simp [generateFeedback, hv]
  | cons q pre_rest ih =>
    intro name msgs post hpre v hv
    obtain ⟨qn, qm⟩ := q
    have hq : dictGet scores qn = none := hpre (qn, qm) (List.mem_cons_self _ _)
    have hpre' : ∀ q2 ∈ pre_rest, dictGet scores q2.1 = none := fun q2 h =>
      hpre q2 (List.mem_cons_of_mem _ h)
    simp only [List.cons_append, generateFeedback, hq]
    exact ih name msgs post hpre' v hv

theorem generateFeedback_no_match (catalog : List (String × FeedbackMessages))
    (scores : List (String × ℚ))
    (h : ∀ q ∈ catalog, dictGet scores q.1 = none) :
    generateFeedback catalog scores = none := by
  induction catalog with
  | nil => rfl
  | cons q rest ih =>
    obtain ⟨qn, qm⟩ := q
    have hq : dictGet scores qn = none := h (qn, qm) (List.mem_cons_self _ _)
    simp only [generateFeedback, hq]
    exact ih fun q2 h2 => h q2 (List.mem_cons_of_mem _ h2)

/-- C3: feedback selection iterates the catalog in its configured order
and, for the first catalog score name present in the ScoreVector, returns
the "high" message exactly when the value is ≥ 0.8 (so 0.8 itself is
"high") and the "low" message otherwise, immediately — entries after the
first match are never inspected (the result is independent of `post`); if
no catalog name is present, or the catalog is empty, `none` is returned. -/
theorem feedback_selection_C3
    (catalog : List (String × FeedbackMessages))
    (scores : List (String × ℚ)) :
    (∀ (pre : List (String × FeedbackMessages)) (name : String)
        (msgs : FeedbackMessages) (post : List (String × FeedbackMessages)),
        catalog = pre ++ (name, msgs) :: post →
        (∀ q ∈ pre, dictGet scores q.1 = none) →
        ∀ v : ℚ, dictGet scores name = some v →
        generateFeedback catalog scores
          = some (if 0.8 ≤ v then msgs.high else msgs.low))
    ∧ ((∀ q ∈ catalog, dictGet scores q.1 = none) →
        generateFeedback catalog scores = none) := by
  constructor
  · intro pre name msgs post hcat hpre v hv
    rw [hcat]
    exact generateFeedback_first_match scores pre name msgs post hpre v hv
  · exact generateFeedback_no_match catalog scores

theorem feedback_selection_C3_witness :
    generateFeedback
        [("amplitude_score", ⟨"amp high", "amp low"⟩),
         ("pitch_score", ⟨"pitch high", "pitch low"⟩),
         ("rhythm_score", ⟨"rhythm high", "rhythm low"⟩)]
        [("pitch_score", 0.8), ("rhythm_score", 0.1)]
      = some "pitch high"
    ∧ generateFeedback
        [("amplitude_score", ⟨"amp high", "amp low"⟩)]
        [("pitch_score", 0.79)]
      = none := by
  constructor
  · have h := (feedback_selection_C3
        [("amplitude_score", ⟨"amp high", "amp low"⟩),
         ("pitch_score", ⟨"pitch high", "pitch low"⟩),
         ("rhythm_score", ⟨"rhythm high", "rhythm low"⟩)]
        [("pitch_score", 0.8), ("rhythm_score", 0.1)]).1
        [("amplitude_score", ⟨"amp high", "amp low"⟩)]
        "pitch_score" ⟨"pitch high", "pitch low"⟩
        [("rhythm_score", ⟨"rhythm high", "rhythm low"⟩)]
        rfl (by decide) 0.8 (by simp [dictGet])
    rw [h]
    norm_num
  · exact (feedback_selection_C3
        [("amplitude_score", ⟨"amp high", "amp low"⟩)]
        [("pitch_score", 0.79)]).2 (by decide)

theorem nanToNum_of_isfinite (x : Sample) (h : x.isfinite = true) :
    nanToNum x = x := by
  cases x with
  | finite q => rfl
  | nan => exact absurd h (by simp [Sample.isfinite])
  | posinf => exact absurd h (by simp [Sample.isfinite])
  | neginf => exact absurd h (by simp [Sample.isfinite])

theorem isfinite_nanToNum (x : Sample) : (nanToNum x).isfinite = true := by
  cases x <;> rfl

theorem map_nanToNum_of_all_finite (chunk : List Sample)
    (h : chunk.all Sample.isfinite = true) : chunk.map nanToNum = chunk := by
  have h2 := List.all_eq_true.mp h
  calc chunk.map nanToNum = chunk.map id := by
        apply List.map_congr_left
        intro x hx
        exact nanToNum_of_isfinite x (h2 x hx)
    _ = chunk := List.map_id chunk

theorem sanitizeChunk_eq_map (chunk : List Sample) :
    sanitizeChunk chunk = chunk.map nanToNum := by
  unfold sanitizeChunk
  by_cases h : chunk.all Sample.isfinite = true
  · rw [if_pos h, map_nanToNum_of_all_finite chunk h]
  · rw [if_neg h]

theorem sanitizeChunk_all_finite (chunk : List Sample) :
    (sanitizeChunk chunk).all Sample.isfinite = true := by
  rw [sanitizeChunk_eq_map]
  rw [List.all_map]
  apply List.all_eq_true.mpr
  intro x _
  exact isfinite_nanToNum x

/-- C4 counterexample: for the one-sample chunk `[+Inf]` (a non-finite
input), the sanitization step of `process_and_score` does not replace the
non-finite value with zero, contrary to the claim: `np.nan_to_num` maps
+Inf to the largest finite float value, which is nonzero, so the sanitizer
of the code and the claimed "replace non-finite values with zero" sanitizer
disagree on this input. -/
theorem sanitize_C4_counterexample :
    sanitizeChunk [Sample.posinf] = [Sample.finite float64Max]
    ∧ float64Max ≠ 0
    ∧ sanitizeChunk [Sample.posinf] ≠ sanitizeSpecZero [Sample.posinf] := by
  have h1 : sanitizeChunk [Sample.posinf] = [Sample.finite float64Max] := by
    simp [sanitizeChunk, Sample.isfinite, nanToNum]
  have h2 : float64Max ≠ 0 := by norm_num [float64Max]
  refine ⟨h1, h2, ?_⟩
  have h3 : sanitizeSpecZero [Sample.posinf] = [Sample.finite 0] := by
    simp [sanitizeSpecZero, Sample.isfinite]
  rw [h1, h3]
  simp [h2]

/-- C4 amended: on any chunk, `process_and_score` sanitizes by
`np.nan_to_num` — NaN becomes zero, ±Inf becomes the largest-magnitude
finite float value — yielding an all-finite array, and continues without
raising: the whole call behaves exactly as if it had been handed the
sanitized chunk. -/
theorem sanitize_C4_amended :
    ∀ chunk : List Sample,
      sanitizeChunk chunk = chunk.map nanToNum
      ∧ (sanitizeChunk chunk).all Sample.isfinite = true
      ∧ ∀ (weights : List (String × ℚ))
          (catalog : List (String × FeedbackMessages))
          (reinterp : List Sample → List ℤ)
          (scoresOf : List Sample → List (String × ℚ)) (s : PipelineState),
          processAndScore weights catalog reinterp scoresOf
              (AudioBuffer.ndarr chunk) s
            = processAndScore weights catalog reinterp scoresOf
                (AudioBuffer.ndarr (chunk.map nanToNum)) s := by
  intro chunk
  refine ⟨sanitizeChunk_eq_map chunk, sanitizeChunk_all_finite chunk, ?_⟩
  intro weights catalog reinterp scoresOf s
  have hsan : sanitizeChunk chunk = sanitizeChunk (chunk.map nanToNum) := by
    rw [sanitizeChunk_eq_map, sanitizeChunk_eq_map,
      map_nanToNum_of_all_finite (chunk.map nanToNum)]
    rw [List.all_map]
    apply List.all_eq_true.mpr
    intro x _
    exact isfinite_nanToNum x
  simp only [processAndScore, normalizeChunkInput, hsan]

theorem convertToNumpyArray_ne_half (reinterp : List Sample → List ℤ) :
    convertToNumpyArray reinterp (AudioBuffer.ndarr [Sample.finite (1/2)]) true
      ≠ [Sample.finite (1/2)] := by
  intro heq
  simp only [convertToNumpyArray, if_true] at heq
  revert heq
  generalize reinterp [Sample.finite (1/2)] = a
  intro heq
  by_cases hlt : 1 < npMaxAbs a
  · rw [if_pos hlt] at heq
    cases a with
    | nil => simp at heq
    | cons x rest =>
      simp only [List.map_cons, List.cons.injEq, Sample.finite.injEq] at heq
      obtain ⟨hx, _⟩ := heq
      have h2 : (x : ℚ) * 2 = 32767 := by
        field_simp at hx
        linarith
      have h3 : x * 2 = 32767 := by exact_mod_cast h2
      omega
  · rw [if_neg hlt] at heq
    cases a with
    | nil => simp at heq
    | cons x rest =>
      simp only [List.map_cons, List.cons.injEq, Sample.finite.injEq] at heq
      obtain ⟨hx, _⟩ := heq
      have h3 : (x : ℚ) * 2 = 1 := by rw [hx]; norm_num
      have h4 : x * 2 = 1 := by exact_mod_cast h3
      omega

/-- C7 counterexample: it is not the case that the reference buffers are
normalized "the same way as the incoming chunk in step 2", i.e. converted
only when not already a normalized float array.  Witness: an
already-normalized float array `[0.5]`; the chunk path returns it unchanged
(one sample) while the reference path unconditionally reinterprets it as
16-bit PCM — with the actual IEEE-754 little-endian float32 layout, the
four bytes of 0.5 read as the two int16 words `[0, 16128]` — and converts,
yielding a two-sample array. -/
theorem reference_normalization_C7_counterexample :
    ¬ ∀ (reinterp : List Sample → List ℤ) (buf : AudioBuffer),
        normalizeReference reinterp buf = normalizeChunkInput reinterp buf := by
  intro h
  have h2 := congrArg List.length
    (h (fun _ => [0, 16128]) (AudioBuffer.ndarr [Sample.finite (1/2)]))
  exact absurd h2 (by decide)

/-- C7 amended: the incoming chunk is converted from 16-bit PCM only when
it is not already a float array, but BOTH reference buffers are passed
through the conversion unconditionally.  On raw byte buffers the two paths
agree; on an already-normalized float array they cannot agree — whatever
integer words the memory reinterpretation of `[0.5]` yields, the converted
result is a list of values of the form `k` or `k/32767` with `k` integral,
never the original `[0.5]`. -/
theorem reference_normalization_C7_amended (reinterp : List Sample → List ℤ) :
    (∀ buf, normalizeReference reinterp buf
        = convertToNumpyArray reinterp buf true)
    ∧ (∀ pcm, normalizeReference reinterp (AudioBuffer.raw pcm)
        = normalizeChunkInput reinterp (AudioBuffer.raw pcm))
    ∧ normalizeReference reinterp (AudioBuffer.ndarr [Sample.finite (1/2)])
        ≠ normalizeChunkInput reinterp (AudioBuffer.ndarr [Sample.finite (1/2)]) := by
  refine ⟨fun buf => rfl, fun pcm => rfl, ?_⟩
  intro heq
  exact convertToNumpyArray_ne_half reinterp heq

theorem processAndScore_state_alignDone (weights : List (String × ℚ))
    (catalog : List (String × FeedbackMessages))
    (reinterp : List Sample → List ℤ)
    (scoresOf : List Sample → List (String × ℚ))
    (chunk : AudioBuffer) (s : PipelineState) :
    (processAndScore weights catalog reinterp scoresOf chunk
        s).state.alignDone = true := by
  simp only [processAndScore]
  split
  · rfl
  · rfl

theorem processAndScore_alignInvoked (weights : List (String × ℚ))
    (catalog : List (String × FeedbackMessages))
    (reinterp : List Sample → List ℤ)
    (scoresOf : List Sample → List (String × ℚ))
    (chunk : AudioBuffer) (s : PipelineState) :
    (processAndScore weights catalog reinterp scoresOf chunk
        s).alignInvoked = !s.alignDone := by
  simp only [processAndScore]
  split
  · rfl
  · rfl

theorem runSession_alignFlags_of_done (weights : List (String × ℚ))
    (catalog : List (String × FeedbackMessages))
    (reinterp : List Sample → List ℤ) :
    ∀ (calls : List (AudioBuffer × (List Sample → List (String × ℚ))))
      (s : PipelineState), s.alignDone = true →
      (runSession weights catalog reinterp calls s).map
          ProcessResult.alignInvoked
        = List.replicate calls.length false := by
  intro calls
  induction calls with
  | nil => intro s _; rfl
  | cons c rest ih =>
    intro s hs
    obtain ⟨chunk, scoresOf⟩ := c
    simp only [runSession, List.map_cons, List.length_cons,
      List.replicate_succ]
    have h1 : (processAndScore weights catalog reinterp scoresOf chunk
        s).alignInvoked = false := by
      rw [processAndScore_alignInvoked, hs]
      rfl
    rw [h1, ih _ (processAndScore_state_alignDone weights catalog reinterp
      scoresOf chunk s)]

/-- C5: over every nonempty sequence of `process_and_score` calls on one
orchestrator, `align_audio` is invoked exactly in the first call and never
again: the per-call invocation flags are `true` followed by all `false`. -/
theorem alignment_once_C5 (weights : List (String × ℚ))
    (catalog : List (String × FeedbackMessages))
    (reinterp : List Sample → List ℤ)
    (calls : List (AudioBuffer × (List Sample → List (String × ℚ))))
    (h : calls ≠ []) :
    (runSession weights catalog reinterp calls initialState).map
        ProcessResult.alignInvoked
      = true :: List.replicate (calls.length - 1) false := by
  cases calls with
  | nil => exact absurd rfl h
  | cons c rest =>
    obtain ⟨chunk, scoresOf⟩ := c
    simp only [runSession, List.map_cons, List.length_cons,
      Nat.add_sub_cancel]
    have h1 : (processAndScore weights catalog reinterp scoresOf chunk
        initialState).alignInvoked = true := by
      rw [processAndScore_alignInvoked]
      rfl
    rw [h1, runSession_alignFlags_of_done weights catalog reinterp rest _
      (processAndScore_state_alignDone weights catalog reinterp scoresOf
        chunk initialState)]

theorem alignment_once_C5_witness :
    (runSession [] [] (fun _ => [])
        [(AudioBuffer.ndarr [], fun _ => []),
         (AudioBuffer.ndarr [], fun _ => [])]
        initialState).map ProcessResult.alignInvoked = [true, false] := by
  have h := alignment_once_C5 [] [] (fun _ => [])
    [(AudioBuffer.ndarr [], fun _ => []),
     (AudioBuffer.ndarr [], fun _ => [])] (by simp)
  simpa using h

/-- C6: with the chunk counter at zero (and the cumulative dictionary
nonempty, as it always is — it holds the five fixed keys), both
`final_score` and `get_average_scores` fail with the division-by-zero
error instead of returning a value; with a positive counter both
succeed. -/
theorem zero_chunks_divzero_C6 (weights : List (String × ℚ))
    (catalog : List (String × FeedbackMessages)) (s : PipelineState)
    (hne : s.cumulativeScores ≠ []) :
    (s.chunkCount = 0 →
      finalScore weights catalog s = Except.error "ZeroDivisionError"
      ∧ getAverageScores s = Except.error "ZeroDivisionError")
    ∧ (0 < s.chunkCount →
      (∃ r, finalScore weights catalog s = Except.ok r)
      ∧ ∃ m, getAverageScores s = Except.ok m) := by
  constructor
  · intro h0
    constructor
    · simp [finalScore, h0]
    · simp [getAverageScores, h0, hne]
  · intro hpos
    have h0 : ¬ s.chunkCount = 0 := by omega
    constructor
    · exact ⟨(calculateWeightedScore weights s.cumulativeScores
          / (s.chunkCount : ℚ),
        generateFeedback catalog s.cumulativeScores),
        by simp [finalScore, h0]⟩
    · exact ⟨s.cumulativeScores.map
        (fun p => (p.1, p.2 / (s.chunkCount : ℚ))),
        by simp [getAverageScores, h0]⟩

theorem zero_chunks_divzero_C6_witness :
    (finalScore [] [] initialState = Except.error "ZeroDivisionError"
      ∧ getAverageScores initialState = Except.error "ZeroDivisionError")
    ∧ (∃ r, finalScore [] [] (PipelineState.mk resetScores 1 true)
        = Except.ok r)
    ∧ ∃ m, getAverageScores (PipelineState.mk resetScores 1 true)
        = Except.ok m := by
  constructor
  · exact (zero_chunks_divzero_C6 [] [] initialState (by decide)).1 rfl
  · exact (zero_chunks_divzero_C6 [] []
      (PipelineState.mk resetScores 1 true) (by decide)).2 (by decide)

theorem dictGet_map_div (d : List (String × ℚ)) (c : ℚ) (name : String) :
    dictGet (d.map (fun p => (p.1, p.2 / c))) name
      = (dictGet d name).map (fun x => x / c) := by
  induction d with
  | nil => rfl
  | cons p rest ih =>
    obtain ⟨k, v⟩ := p
    by_cases h : name = k
    · subst h
      simp [dictGet]
    · simp [dictGet, h, ih]

/-- C8: after `n ≥ 1` processed chunks, `get_average_scores` returns, for
every score name held in the cumulative dictionary, the cumulative
sum divided by the chunk counter, with no weight applied: a name whose sum
is Σ maps to exactly Σ / n. -/
theorem get_average_scores_C8 (s : PipelineState) (h : 0 < s.chunkCount) :
    ∃ m, getAverageScores s = Except.ok m
      ∧ dictKeys m = dictKeys s.cumulativeScores
      ∧ ∀ name v, dictGet s.cumulativeScores name = some v →
          dictGet m name = some (v / (s.chunkCount : ℚ)) := by
  have h0 : ¬ s.chunkCount = 0 := by omega
  refine ⟨s.cumulativeScores.map
    (fun p => (p.1, p.2 / (s.chunkCount : ℚ))), ?_, ?_, ?_⟩
  · simp [getAverageScores, h0]
  · rw [dictKeys, dictKeys, List.map_map]
    apply List.map_congr_left
    intro p _
    rfl
  · intro name v hv
    rw [dictGet_map_div, hv]
    rfl

theorem get_average_scores_C8_witness :
    ∃ m, getAverageScores (PipelineState.mk resetScores 2 true) = Except.ok m
      ∧ dictKeys m = dictKeys resetScores
      ∧ ∀ name v, dictGet resetScores name = some v →
          dictGet m name = some (v / (2 : ℚ)) := by
  have h := get_average_scores_C8 (PipelineState.mk resetScores 2 true)
    (by decide)
  simpa using h

/-- C9: `final_score` and `get_average_scores` are read-only queries:
the object state after either call — the cumulative per-score sums, the
chunk counter and the alignment-done flag — is the state before it.  (The
claim assumes a positive chunk counter; the frame property holds for every
state.) -/
theorem queries_readonly_C9 (weights : List (String × ℚ))
    (catalog : List (String × FeedbackMessages)) (s : PipelineState) :
    (finalScoreCall weights catalog s).2 = s
    ∧ (getAverageScoresCall s).2 = s
    ∧ (finalScoreCall weights catalog s).2.cumulativeScores
        = s.cumulativeScores
    ∧ (finalScoreCall weights catalog s).2.chunkCount = s.chunkCount
    ∧ (finalScoreCall weights catalog s).2.alignDone = s.alignDone
    ∧ (getAverageScoresCall s).2.cumulativeScores = s.cumulativeScores
    ∧ (getAverageScoresCall s).2.chunkCount = s.chunkCount
    ∧ (getAverageScoresCall s).2.alignDone = s.alignDone :=
  ⟨rfl, rfl, rfl, rfl, rfl, rfl, rfl, rfl⟩

theorem processAndScore_keys (weights : List (String × ℚ))
    (catalog : List (String × FeedbackMessages))
    (reinterp : List Sample → List ℤ)
    (scoresOf : List Sample → List (String × ℚ))
    (chunk : AudioBuffer) (s : PipelineState) :
    dictKeys (processAndScore weights catalog reinterp scoresOf chunk
        s).state.cumulativeScores = dictKeys s.cumulativeScores := by
  have hk := accumulateScores_keys
    (scoresOf (sanitizeChunk (normalizeChunkInput reinterp chunk)))
    s.cumulativeScores
  simp only [processAndScore]
  split
  case _ d heq =>
    rw [heq] at hk
    simpa using hk
  case _ d heq =>
    rw [heq] at hk
    simpa using hk

theorem processAndScore_missing_key (weights : List (String × ℚ))
    (catalog : List (String × FeedbackMessages))
    (reinterp : List Sample → List ℤ)
    (scoresOf : List Sample → List (String × ℚ))
    (chunk : AudioBuffer) (s : PipelineState) (name : String)
    (hmem : name ∈ dictKeys
      (scoresOf (sanitizeChunk (normalizeChunkInput reinterp chunk))))
    (hmiss : name ∉ dictKeys s.cumulativeScores) :
    (processAndScore weights catalog reinterp scoresOf chunk s).output
        = none
    ∧ (processAndScore weights catalog reinterp scoresOf chunk
        s).state.chunkCount = s.chunkCount := by
  obtain ⟨d2, hd2⟩ := accumulateScores_error_of_missing
    (scoresOf (sanitizeChunk (normalizeChunkInput reinterp chunk)))
    s.cumulativeScores name hmem hmiss
  constructor
  · simp only [processAndScore]
    rw [hd2]
  · simp only [processAndScore]
    rw [hd2]

/-- C10: the cumulative-score dictionary is created with exactly the five
fixed score names and its key set is never extended by any call; a
`process_and_score` call whose score vector holds a name outside the
current key set raises the missing-key error — the call returns no value
and the chunk counter is not incremented (the accumulation loop sits after
scoring and feedback selection and before the counter increment in the
method body, and neither of those two steps touches the state). -/
theorem fixed_keys_C10 :
    dictKeys initialState.cumulativeScores
      = ["linguistic_accuracy_score", "linguistic_similarity_score",
         "amplitude_score", "pitch_score", "rhythm_score"]
    ∧ (∀ (weights : List (String × ℚ))
        (catalog : List (String × FeedbackMessages))
        (reinterp : List Sample → List ℤ)
        (scoresOf : List Sample → List (String × ℚ))
        (chunk : AudioBuffer) (s : PipelineState),
        dictKeys (processAndScore weights catalog reinterp scoresOf chunk
            s).state.cumulativeScores = dictKeys s.cumulativeScores)
    ∧ ∀ (weights : List (String × ℚ))
        (catalog : List (String × FeedbackMessages))
        (reinterp : List Sample → List ℤ)
        (scoresOf : List Sample → List (String × ℚ))
        (chunk : AudioBuffer) (s : PipelineState) (name : String),
        name ∈ dictKeys
          (scoresOf (sanitizeChunk (normalizeChunkInput reinterp chunk))) →
        name ∉ dictKeys s.cumulativeScores →
        (processAndScore weights catalog reinterp scoresOf chunk s).output
            = none
        ∧ (processAndScore weights catalog reinterp scoresOf chunk
            s).state.chunkCount = s.chunkCount :=
  ⟨rfl, processAndScore_keys, processAndScore_missing_key⟩

theorem fixed_keys_C10_witness :
    (processAndScore [] [] (fun _ => []) (fun _ => [("extra_score", 1)])
        (AudioBuffer.ndarr []) initialState).output = none
    ∧ (processAndScore [] [] (fun _ => []) (fun _ => [("extra_score", 1)])
        (AudioBuffer.ndarr []) initialState).state.chunkCount
      = initialState.chunkCount :=
  fixed_keys_C10.2.2 [] [] (fun _ => []) (fun _ => [("extra_score", 1)])
    (AudioBuffer.ndarr []) initialState "extra_score" (by decide) (by decide)

theorem scaledCumulative_keys (n : ℕ) (S : List (String × ℚ)) :
    dictKeys (scaledCumulative n S) = dictKeys resetScores := by
  rw [scaledCumulative, dictKeys, dictKeys, List.map_map]
  apply List.map_congr_left
  intro p _
  rfl

theorem scaledCumulative_zero (S : List (String × ℚ)) :
    scaledCumulative 0 S = resetScores := by
  simp [scaledCumulative, resetScores]

theorem processAndScore_identical_step (weights : List (String × ℚ))
    (catalog : List (String × FeedbackMessages))
    (reinterp : List Sample → List ℤ) (S : List (String × ℚ))
    (hS : (dictKeys S).Nodup)
    (hsub : ∀ k ∈ dictKeys S, k ∈ dictKeys resetScores)
    (n : ℕ) (b : Bool) (chunk : AudioBuffer)
    (scoresOf : List Sample → List (String × ℚ))
    (hf : scoresOf (sanitizeChunk (normalizeChunkInput reinterp chunk)) = S) :
    processAndScore weights catalog reinterp scoresOf chunk
        (PipelineState.mk (scaledCumulative n S) n b)
      = ProcessResult.mk (!b)
          (some (calculateWeightedScore weights S,
                 calculateWeightedScore weights S,
                 generateFeedback catalog S))
          (PipelineState.mk (scaledCumulative (n + 1) S) (n + 1) true) := by
  have hnodup : (dictKeys (scaledCumulative n S)).Nodup := by
    rw [scaledCumulative_keys]
    decide
  have hsub' : ∀ k ∈ dictKeys S, k ∈ dictKeys (scaledCumulative n S) := by
    intro k hk
    rw [scaledCumulative_keys]
    exact hsub k hk
  have hacc := accumulateScores_ok S (scaledCumulative n S) hnodup hS hsub'
  have hval : (scaledCumulative n S).map
      (fun p => (p.1, p.2 + dictGetD S p.1)) = scaledCumulative (n + 1) S := by
    rw [scaledCumulative, scaledCumulative, List.map_map]
    apply List.map_congr_left
    intro p _
    simp only [Function.comp]
    congr 1
    push_cast
    ring
  rw [hval] at hacc
  have hw : calculateWeightedScore weights (scaledCumulative (n + 1) S)
      = ((n + 1 : ℕ) : ℚ) * calculateWeightedScore weights S := by
    rw [scaledCumulative]
    exact weighted_scaled weights S hS hsub (((n + 1 : ℕ) : ℚ))
  have hne : ((n + 1 : ℕ) : ℚ) ≠ 0 := by positivity
  simp only [processAndScore, hf, hacc, hw]
  rw [mul_div_cancel_left₀ _ hne]

theorem runSession_identical (weights : List (String × ℚ))
    (catalog : List (String × FeedbackMessages))
    (reinterp : List Sample → List ℤ) (S : List (String × ℚ))
    (hS : (dictKeys S).Nodup)
    (hsub : ∀ k ∈ dictKeys S, k ∈ dictKeys resetScores) :
    ∀ (calls : List (AudioBuffer × (List Sample → List (String × ℚ))))
      (n : ℕ) (b : Bool),
      (∀ p ∈ calls,
        p.2 (sanitizeChunk (normalizeChunkInput reinterp p.1)) = S) →
      ∀ res ∈ runSession weights catalog reinterp calls
          (PipelineState.mk (scaledCumulative n S) n b),
        res.output = some (calculateWeightedScore weights S,
          calculateWeightedScore weights S, generateFeedback catalog S) := by
  intro calls
  induction calls with
  | nil =>
    intro n b _ res hres
    simp [runSession] at hres
  | cons c rest ih =>
    intro n b hcalls res hres
    obtain ⟨chunk, scoresOf⟩ := c
    have hf : scoresOf (sanitizeChunk (normalizeChunkInput reinterp chunk))
        = S := hcalls (chunk, scoresOf) (List.mem_cons_self _ _)
    simp only [runSession] at hres
    rw [processAndScore_identical_step weights catalog reinterp S hS hsub
      n b chunk scoresOf hf] at hres
    rcases List.mem_cons.mp hres with h | h
    · rw [h]
    · exact ih (n + 1) true
        (fun p hp => hcalls p (List.mem_cons_of_mem _ hp)) res h

/-- C2: when every chunk of a session yields one identical ScoreVector S
(with well-formed keys drawn from the five accumulator names, without
which a call raises instead of returning), every `process_and_score` call
— in particular the n-th — returns as its running average exactly the
single-chunk composite score of S (and the same value as the instant
score). -/
theorem identical_chunks_average_C2 (weights : List (String × ℚ))
    (catalog : List (String × FeedbackMessages))
    (reinterp : List Sample → List ℤ) (S : List (String × ℚ))
    (calls : List (AudioBuffer × (List Sample → List (String × ℚ))))
    (hS : (dictKeys S).Nodup)
    (hsub : ∀ k ∈ dictKeys S, k ∈ dictKeys resetScores)
    (hcalls : ∀ p ∈ calls,
      p.2 (sanitizeChunk (normalizeChunkInput reinterp p.1)) = S) :
    ∀ res ∈ runSession weights catalog reinterp calls initialState,
      res.output = some (calculateWeightedScore weights S,
        calculateWeightedScore weights S, generateFeedback catalog S) := by
  have h0 : initialState = PipelineState.mk (scaledCumulative 0 S) 0 false := by
    rw [scaledCumulative_zero]
    rfl
  rw [h0]
  exact runSession_identical weights catalog reinterp S hS hsub calls 0
    false hcalls

theorem identical_chunks_average_C2_witness :
    (processAndScore [("pitch_score", 1)] [] (fun _ => [])
        (fun _ => [("pitch_score", 0.9)]) (AudioBuffer.ndarr [])
        initialState).output
      = some (calculateWeightedScore [("pitch_score", 1)]
            [("pitch_score", 0.9)],
          calculateWeightedScore [("pitch_score", 1)]
            [("pitch_score", 0.9)],
          generateFeedback [] [("pitch_score", 0.9)]) := by
  have hcalls : ∀ p ∈ [((AudioBuffer.ndarr [] : AudioBuffer),
      fun _ => [("pitch_score", (0.9 : ℚ))])],
      p.2 (sanitizeChunk (normalizeChunkInput (fun _ => []) p.1))
        = [("pitch_score", (0.9 : ℚ))] := by
    intro p hp
    rw [List.mem_singleton] at hp
    subst hp
    rfl
  have h := identical_chunks_average_C2 [("pitch_score", 1)] []
    (fun _ => []) [("pitch_score", 0.9)]
    [(AudioBuffer.ndarr [], fun _ => [("pitch_score", 0.9)])]
    (by decide) (by decide) hcalls
  exact h _ (by simp [runSession])

theorem sanitize_C4_amended_witness :
    sanitizeChunk [Sample.nan, Sample.finite 1]
        = [Sample.nan, Sample.finite 1].map nanToNum
    ∧ (sanitizeChunk [Sample.nan, Sample.finite 1]).all Sample.isfinite
        = true := by
  have h := sanitize_C4_amended [Sample.nan, Sample.finite 1]
  exact ⟨h.1, h.2.1⟩

theorem reference_normalization_C7_amended_witness :
    normalizeReference (fun _ => [0, 16128])
        (AudioBuffer.ndarr [Sample.finite (1/2)])
      ≠ normalizeChunkInput (fun _ => [0, 16128])
        (AudioBuffer.ndarr [Sample.finite (1/2)]) :=
  (reference_normalization_C7_amended (fun _ => [0, 16128])).2.2
